import Mathlib

/-!
docx2txt: the tolerant paragraph scanner, the paragraph reader and the dispatcher.

A shallow embedding of `internal/brokendocx/brokendocx.go` and of the parts of `main.go`
that decide the verified properties.

Go strings and byte slices are modelled as lists of characters (`Str`).  Every literal the
program compares against is ASCII, and Go's `regexp` package decodes its input rune by rune
(a byte that is not valid UTF-8 counts as one replacement character), so a list of
characters is the level at which the program observes its input.
-/

namespace Docx2txt

/-- A Go string or byte slice, as the list of its characters. -/
abbrev Str := List Char

/-! ## Regular expressions (Go `regexp`, leftmost-first semantics) -/

/-- Syntax of the regular expressions the program compiles.  Repetition is only ever applied
to a one-character class in the three patterns of the program. -/
inductive Re where
  | eps
  | chr (p : Char → Bool)
  | seq (a b : Re)
  | alt (a b : Re)
  | star (p : Char → Bool)
  | lazyStar (p : Char → Bool)
  | group (r : Re)

/-- Greedy `x*` followed by the continuation `k`: prefer one more character. -/
def starGreedy {α : Type} (p : Char → Bool) (k : Str → Option α) : Str → Option α
  | [] => k []
  | c :: cs =>
    if p c then
      match starGreedy p k cs with
      | some r => some r
      | none => k (c :: cs)
    else k (c :: cs)

/-- Non-greedy `x*?` followed by the continuation `k`: prefer to stop. -/
def starLazy {α : Type} (p : Char → Bool) (k : Str → Option α) : Str → Option α
  | [] => k []
  | c :: cs =>
    match k (c :: cs) with
    | some r => some r
    | none => if p c then starLazy p k cs else none

/-- Backtracking matcher in continuation-passing style.  `run r k s cap` matches `r` at the
start of `s` and hands the rest of the input and the text of capture group 1 to `k`; the
alternatives are tried in Go's priority order, so the first success is the match that
`regexp` reports. -/
def Re.run {α : Type} : Re → (Str → Option Str → Option α) → Str → Option Str → Option α
  | .eps, k, s, cap => k s cap
  | .chr p, k, s, cap =>
    match s with
    | [] => none
    | c :: cs => if p c then k cs cap else none
  | .seq a b, k, s, cap => a.run (fun s1 cap1 => b.run k s1 cap1) s cap
  | .alt a b, k, s, cap =>
    match a.run k s cap with
    | some r => some r
    | none => b.run k s cap
  | .star p, k, s, cap => starGreedy p (fun s1 => k s1 cap) s
  | .lazyStar p, k, s, cap => starLazy p (fun s1 => k s1 cap) s
  | .group r, k, s, cap =>
    r.run (fun s1 _ => k s1 (some (s.take (s.length - s1.length)))) s cap

/-- A literal string as a regular expression. -/
def Re.lits : Str → Re
  | [] => .eps
  | c :: cs => .seq (.chr (fun x => x == c)) (Re.lits cs)

/-- The expression `r` repeated exactly `n` times. -/
def Re.rep : Nat → Re → Re
  | 0, _ => .eps
  | n + 1, r => .seq r (Re.rep n r)

/-- The bounded repetition `r{0,n}`, greedy. -/
def Re.upTo : Nat → Re → Re
  | 0, _ => .eps
  | n + 1, r => .alt (.seq r (Re.upTo n r)) .eps

/-- Match `re` at the very start of `s`: the text of group 1 and the input left after the
match. -/
def matchAt (re : Re) (s : Str) : Option (Str × Str) :=
  re.run (fun rest cap => some (cap.getD [], rest)) s none

/-- Worker of `findAllSubmatch`: `skip` characters of the current match are still to be
stepped over before the next search starts. -/
def findAllFrom (re : Re) : Str → Nat → List Str
  | [], _ => []
  | _ :: cs, skip + 1 => findAllFrom re cs skip
  | c :: cs, 0 =>
    match matchAt re (c :: cs) with
    | some (cap, rest) => cap :: findAllFrom re cs ((c :: cs).length - rest.length - 1)
    | none => findAllFrom re cs 0

/-- Model of `re.FindAllSubmatch(s, -1)` projected on group 1, for patterns that never match
the empty string: successive leftmost matches, each search starting where the previous
match ended. -/
def findAllSubmatch (re : Re) (s : Str) : List Str :=
  findAllFrom re s 0

/-- Model of `re.MatchString(s)`: some substring of `s` matches. -/
def matchString (re : Re) : Str → Bool
  | [] => (matchAt re []).isSome
  | c :: cs => (matchAt re (c :: cs)).isSome || matchString re cs

/-- The class `[^>]`; a negated class also matches a line feed. -/
def notGt (c : Char) : Bool := c != '>'

/-- The class `.` without the flag `s`: any character but a line feed. -/
def dot (c : Char) : Bool := c != '\n'

/-- The pattern `<open[^>]*>(.*?)</close>` shared by both tag patterns. -/
def tagRe (opening closing : Str) : Re :=
  .seq (Re.lits opening) (.seq (.star notGt) (.seq (.chr (fun x => x == '>'))
    (.seq (.group (.lazyStar dot)) (Re.lits closing))))

/-- The pattern of `reParagraph`, `<w:p[^>]*>(.*?)</w:p>`. -/
def reParagraph : Re := tagRe "<w:p".toList "</w:p>".toList

/-- The pattern of `reText`, `<w:t[^>]*>(.*?)</w:t>`. -/
def reText : Re := tagRe "<w:t".toList "</w:t>".toList

/-- The class `[A-Za-z0-9+/]`. -/
def isB64 (c : Char) : Bool :=
  ('A' ≤ c && c ≤ 'Z') || ('a' ≤ c && c ≤ 'z') || ('0' ≤ c && c ≤ '9') || c == '+' || c == '/'

/-- The class `[^"]`. -/
def notQuote (c : Char) : Bool := c != '"'

/-- The pattern compiled in `convertDocxToTxt`,
`(?:[A-Za-z0-9+/]{40,}={0,2}|iVBORw0KGgo[^"]+)`: `x{40,}` is forty copies of `x` and then
`x*`, and `x+` is `x` and then `x*`. -/
def reBase64 : Re :=
  .alt
    (.seq (Re.rep 40 (.chr isB64)) (.seq (.star isB64) (Re.upTo 2 (.chr (fun x => x == '=')))))
    (.seq (Re.lits "iVBORw0KGgo".toList) (.seq (.chr notQuote) (.star notQuote)))

/-! ## The scanning part of `ParceBrokenXML` -/

/-- The inner loop over `textMatches`: the `strings.Builder` after all runs. -/
def paragraphText (filter : Option Re) (paragraphContent : Str) : Str :=
  (findAllSubmatch reText paragraphContent).foldl
    (fun builder text =>
      match filter with
      | some re => if !matchString re text then builder ++ text else builder
      | none => builder)
    []

/-- The outer loop over `paragraphMatches`: the slice `texts` that is returned. -/
def scan (filter : Option Re) (documentXML : Str) : List Str :=
  (findAllSubmatch reParagraph documentXML).foldl
    (fun texts paragraphContent =>
      let builder := paragraphText filter paragraphContent
      if builder.length > 0 then texts ++ [builder ++ "\n\n".toList] else texts)
    []

/-! ## The archive, `ParceBrokenXML`, `NewReader` and `Reader.Read` -/

/-- The errors the package returns. -/
inductive Error where
  | eof
  | openArchive (cause : String)
  | openEntry (cause : String)
  | readEntry (cause : String)
  | notFound
  deriving DecidableEq

/-- What `file.Open()` followed by `io.ReadAll` gives for one archive entry. -/
inductive EntryData where
  | openFails (cause : String)
  | readFails (cause : String)
  | content (bytes : Str)
  deriving DecidableEq

/-- One element of `zipReader.File`. -/
structure ZipFile where
  Name : Str
  data : EntryData
  deriving DecidableEq

/-- Model of `normalizePath`: `strings.ReplaceAll(path, "\\", "/")`. -/
def normalizePath (path : Str) : Str :=
  path.map (fun c => if c = '\\' then '/' else c)

/-- The loop over `zipReader.File`.  `none` is the `nil` slice `documentXML` is left with when
no entry matches; `io.ReadAll` returns a non-nil slice on success, also for an empty entry. -/
def findDocumentXML : List ZipFile → Except Error (Option Str)
  | [] => .ok none
  | file :: rest =>
    if normalizePath file.Name = "word/document.xml".toList then
      match file.data with
      | .openFails cause => .error (.openEntry cause)
      | .readFails cause => .error (.readEntry cause)
      | .content bytes => .ok (some bytes)
    else findDocumentXML rest

/-- Model of `ParceBrokenXML`; `opened` is the outcome of `zip.OpenReader(filepath)`. -/
def ParceBrokenXML (opened : Except String (List ZipFile)) (filter : Option Re) :
    Except Error (List Str) :=
  match opened with
  | .error cause => .error (.openArchive cause)
  | .ok files =>
    match findDocumentXML files with
    | .error e => .error e
    | .ok none => .error .notFound
    | .ok (some documentXML) => .ok (scan filter documentXML)

/-- The struct `Reader`. -/
structure Reader where
  texts : List Str
  index : Nat
  reBase64 : Option Re

/-- Model of `NewReader`. -/
def NewReader (opened : Except String (List ZipFile)) (filter : Option Re) :
    Except Error Reader :=
  match ParceBrokenXML opened filter with
  | .error e => .error e
  | .ok texts => .ok { texts := texts, index := 0, reBase64 := filter }

/-- Model of `(*Reader).Read`: the returned pair and the reader after the call. -/
def Reader.Read (r : Reader) : (Str × Option Error) × Reader :=
  if h : r.index ≥ r.texts.length then (([], some .eof), r)
  else ((r.texts.get ⟨r.index, by omega⟩, none), { r with index := r.index + 1 })

/-- The reader after `k` calls of `Read`. -/
def Reader.afterReads : Nat → Reader → Reader
  | 0, r => r
  | k + 1, r => Reader.afterReads k r.Read.2

/-- What the `k`-th call of `Read` (counting from 0) returns. -/
def Reader.nthRead (r : Reader) (k : Nat) : Str × Option Error :=
  (Reader.afterReads k r).Read.1

/-! ## `main`: the level check and the output path -/

/-- Go's `gzip.NoCompression`. -/
def gzipNoCompression : Int := 0

/-- Go's `gzip.BestCompression`. -/
def gzipBestCompression : Int := 9

/-- Go's `gzip.DefaultCompression`. -/
def gzipDefaultCompression : Int := -1

/-- The default of the flag `level`, the second argument of `flag.Int("level", ...)`. -/
def levelFlagDefault : Int := gzipDefaultCompression

/-- The condition of the level check of `main`; `true` means `main` prints the message and
returns before any conversion. -/
def levelRejected (compressionLevel : Int) : Bool :=
  decide (compressionLevel < gzipNoCompression) || decide (compressionLevel > gzipBestCompression)

/-- Go's `os.IsPathSeparator` on Unix. -/
def isPathSeparator (c : Char) : Bool := c == '/'

/-- Go's `filepath.Base` on Unix (no volume names). -/
def filepathBase (path : Str) : Str :=
  if path = [] then ".".toList
  else
    let stripped := (path.reverse.dropWhile isPathSeparator).reverse
    let last := (stripped.reverse.takeWhile (fun c => !isPathSeparator c)).reverse
    if last = [] then "/".toList else last

/-- The expression `filepath.Base(inputPath[:len(inputPath)-5] + ".txt")` of the dispatch
closure; `none` is the slice-bounds panic for a path shorter than five characters. -/
def outputFileName (inputPath : Str) : Option Str :=
  if inputPath.length < 5 then none
  else some (filepathBase (inputPath.take (inputPath.length - 5) ++ ".txt".toList))

/-- The `outputPath` handed to `convertDocxToTxt`; `join` stands for `filepath.Join`. -/
def outputPath (join : Str → Str → Str) (outputDir inputPath : Str) : Option Str :=
  (outputFileName inputPath).map (join outputDir)

/-- The path `convertDocxToTxt` writes to. -/
def writtenPath (compress : Bool) (outputPath : Str) : Str :=
  if compress then outputPath ++ ".gz".toList else outputPath

/-! ## `main`: the dispatch loop and the guard channel -/

/-- Where a spawned goroutine stands: inside `convertDocxToTxt`, returned from it (with or
without success, `wg.Done` has run) with the deferred receive from `guard` still to run, or
finished. -/
inductive Phase where
  | converting
  | returned (ok : Bool)
  | released (ok : Bool)
  deriving DecidableEq

/-- The goroutine is inside `convertDocxToTxt`. -/
def Phase.isConverting : Phase → Bool
  | .converting => true
  | _ => false

/-- The goroutine has put its permit in and not yet taken one out. -/
def Phase.holdsPermit : Phase → Bool
  | .released _ => false
  | _ => true

/-- The goroutine has run its deferred receive. -/
def Phase.isReleased : Phase → Bool
  | .released _ => true
  | _ => false

/-- State of the dispatch loop: the files the `range` loop has not reached, the number of
permits in the channel `guard`, the goroutines spawned so far, and whether `main` has
returned. -/
structure Dispatch where
  pending : List Str
  guard : Nat
  tasks : List Phase
  exited : Bool
  deriving DecidableEq

/-- The atomic steps of the loop and of its goroutines: an iteration of the loop (send on
`guard`, then `go`), the return of `convertDocxToTxt` in goroutine `i`, the deferred receive
of goroutine `i`, and the return of `main` after `wg.Wait()`. -/
inductive Event where
  | spawn
  | finish (i : Nat) (ok : Bool)
  | release (i : Nat)
  | exit
  deriving DecidableEq

/-- The state before the first iteration. -/
def Dispatch.init (files : List Str) : Dispatch :=
  { pending := files, guard := 0, tasks := [], exited := false }

/-- One step with a guard channel of capacity `cap`; `none` when the step is not enabled.
A send on a full channel and a receive on an empty one block; `wg.Wait()` returns once the
loop is over and every spawned conversion has returned; after `main` has returned the
process is over and no goroutine takes a step. -/
def Dispatch.step (cap : Nat) (s : Dispatch) (e : Event) : Option Dispatch :=
  if s.exited then none
  else
    match e with
    | .spawn =>
      match s.pending with
      | [] => none
      | _ :: rest =>
        if s.guard < cap then
          some { s with pending := rest, guard := s.guard + 1, tasks := s.tasks ++ [.converting] }
        else none
    | .finish i ok =>
      if s.tasks[i]? = some .converting then
        some { s with tasks := s.tasks.set i (.returned ok) }
      else none
    | .release i =>
      match s.tasks[i]? with
      | some (.returned ok) =>
        if 0 < s.guard then
          some { s with guard := s.guard - 1, tasks := s.tasks.set i (.released ok) }
        else none
      | _ => none
    | .exit =>
      if s.pending.isEmpty && s.tasks.all (fun p => !p.isConverting) then
        some { s with exited := true }
      else none

/-- Run a sequence of steps. -/
def Dispatch.run (cap : Nat) : Dispatch → List Event → Option Dispatch
  | s, [] => some s
  | s, e :: es =>
    match Dispatch.step cap s e with
    | some s1 => Dispatch.run cap s1 es
    | none => none

/-- The states the loop can be in. -/
def Dispatch.Reachable (cap : Nat) (files : List Str) (s : Dispatch) : Prop :=
  ∃ es, Dispatch.run cap (Dispatch.init files) es = some s

/-- Number of goroutines inside `convertDocxToTxt`. -/
def Dispatch.active (s : Dispatch) : Nat :=
  s.tasks.countP Phase.isConverting

/-- Number of goroutines that have not yet taken their permit out. -/
def Dispatch.holding (s : Dispatch) : Nat :=
  s.tasks.countP Phase.holdsPermit

/-- Number of goroutines that have taken a permit out. -/
def Dispatch.releasedCount (s : Dispatch) : Nat :=
  s.tasks.countP Phase.isReleased

/-- The invariant of the dispatch loop over `n` input files: the permits in the channel are
those of the goroutines still holding one, they never exceed the capacity, every permit put
in is in the channel or was taken out by a finished goroutine, and every file is either
pending or has its goroutine. -/
def Dispatch.Inv (cap n : Nat) (s : Dispatch) : Prop :=
  s.guard = s.holding ∧ s.guard ≤ cap ∧ s.guard + s.releasedCount = s.tasks.length ∧
    s.tasks.length + s.pending.length = n

/-! ## The filter in the words of the specification -/

/-- The base64-like heuristic as the specification words it: somewhere in the text there are
40 or more consecutive characters of `A-Z`, `a-z`, `0-9`, `+`, `/` (the optional `=` padding
after them adds nothing to whether a match exists), or the signature `iVBORw0KGgo`
followed by at least one character that is not a double quote. -/
def base64Like (text : Str) : Bool :=
  text.tails.any (fun t =>
    decide (40 ≤ (t.takeWhile isB64).length) ||
    ("iVBORw0KGgo".toList.isPrefixOf t &&
      match t.drop 11 with
      | c :: _ => c != '"'
      | [] => false))

/-! ## Document bodies made of paragraph elements -/

/-- One paragraph element of a document body together with what precedes it: `gap`, then
`<w:p`, `attrs`, `>`, `content`, `</w:p>`. -/
structure Para where
  gap : Str
  attrs : Str
  content : Str
  deriving DecidableEq

/-- The markup of the paragraph element itself. -/
def Para.markup (p : Para) : Str :=
  "<w:p".toList ++ p.attrs ++ ">".toList ++ p.content ++ "</w:p>".toList

/-- A document body made of consecutive paragraph elements, each after its gap, and of what
follows the last one. -/
def documentOf : List Para → Str → Str
  | [], tail => tail
  | p :: rest, tail => p.gap ++ p.markup ++ documentOf rest tail

/-- A paragraph element the pattern segments as one span: no `<w:p` starts in the gap before
it, its attributes hold no `>`, and its content holds neither a line feed nor a closing
paragraph tag. -/
def Para.Plain (p : Para) : Prop :=
  ¬ "<w:p".toList <:+: p.gap ∧ '>' ∉ p.attrs ∧ '\n' ∉ p.content ∧
    ¬ "</w:p>".toList <:+: p.content

instance (p : Para) : Decidable p.Plain := by
  unfold Para.Plain
  infer_instance

/-! ## The reader -/

theorem Reader.afterReads_eq (k : Nat) (r : Reader) (h : r.index ≤ r.texts.length) :
    Reader.afterReads k r = { r with index := min (r.index + k) r.texts.length } := by
  induction k generalizing r with
  | zero => simp [Reader.afterReads, Nat.min_eq_left h]
  | succ k ih =>
    rw [Reader.afterReads]
    by_cases hlt : r.index ≥ r.texts.length
    · have hr : r.Read.2 = r := by simp [Reader.Read, hlt]
      rw [hr, ih r h]
      have : r.index = r.texts.length := by omega
      simp [this]
    · have hr : r.Read.2 = { r with index := r.index + 1 } := by simp [Reader.Read, hlt]
      rw [hr, ih _ (by simp; omega)]
      simp
      omega

/-- C5: the `k`-th call of `Read` on a fresh reader over `texts` returns `texts[k]` without
error while `k` is below the length and the empty string with `io.EOF` from then on; the
cursor after `k` calls is `min k (len texts)`, so a call that signals end-of-stream leaves
the reader as it was. -/
theorem read_sequence (texts : List Str) (filter : Option Re) (k : Nat) :
    (Reader.nthRead { texts := texts, index := 0, reBase64 := filter } k =
      if h : k < texts.length then (texts.get ⟨k, h⟩, none) else ([], some Error.eof)) ∧
    (Reader.afterReads k { texts := texts, index := 0, reBase64 := filter }).index =
      min k texts.length ∧
    (Reader.afterReads k { texts := texts, index := 0, reBase64 := filter }).texts = texts ∧
    Reader.afterReads (texts.length + k + 1) { texts := texts, index := 0, reBase64 := filter } =
      Reader.afterReads (texts.length + k) { texts := texts, index := 0, reBase64 := filter } := by
  have key : ∀ j, Reader.afterReads j { texts := texts, index := 0, reBase64 := filter } =
      { texts := texts, index := min j texts.length, reBase64 := filter } := by
    intro j
    rw [Reader.afterReads_eq j _ (Nat.zero_le _)]
    simp
  refine ⟨?_, ?_, ?_, ?_⟩
  · rw [Reader.nthRead, key]
    by_cases h : k < texts.length
    · rw [Nat.min_eq_left (Nat.le_of_lt h)]
      simp [Reader.Read, h, Nat.not_le.mpr h]
    · rw [Nat.min_eq_right (Nat.le_of_not_lt h)]
      simp [Reader.Read, h]
  · rw [key]
  · rw [key]
  · rw [key, key]
    have h1 : min (texts.length + k + 1) texts.length = texts.length := by omega
    have h2 : min (texts.length + k) texts.length = texts.length := by omega
    simp only [h1, h2]

/-! ## The archive locator -/

theorem findDocumentXML_eq_find (files : List ZipFile) :
    findDocumentXML files =
      match files.find? (fun f => decide (normalizePath f.Name = "word/document.xml".toList)) with
      | none => .ok none
      | some f =>
        match f.data with
        | .openFails cause => .error (.openEntry cause)
        | .readFails cause => .error (.readEntry cause)
        | .content bytes => .ok (some bytes) := by
  induction files with
  | nil => rfl
  | cons f rest ih =>
    by_cases h : normalizePath f.Name = "word/document.xml".toList
    · simp only [findDocumentXML, List.find?, h, decide_True, if_true]
    · simp only [findDocumentXML, List.find?, h, decide_False, if_false]
      exact ih

/-- C6: on an opened archive `ParceBrokenXML` returns the not-found error exactly when no
entry name normalises to `word/document.xml`; otherwise it scans the content of the first
such entry in archive order (an empty content included) or fails with the error of opening
or reading that entry; `normalizePath` leaves no backslash and touches nothing else. -/
theorem locate_main_entry (files : List ZipFile) (filter : Option Re) :
    (ParceBrokenXML (.ok files) filter = .error .notFound ↔
      ∀ f ∈ files, normalizePath f.Name ≠ "word/document.xml".toList) ∧
    ParceBrokenXML (.ok files) filter =
      (match files.find? (fun f => decide (normalizePath f.Name = "word/document.xml".toList)) with
      | none => .error .notFound
      | some f =>
        match f.data with
        | .openFails cause => .error (.openEntry cause)
        | .readFails cause => .error (.readEntry cause)
        | .content bytes => .ok (scan filter bytes)) ∧
    (∀ path : Str, normalizePath path =
      path.map (fun c => if c = '\\' then '/' else c) ∧ '\\' ∉ normalizePath path) := by
  have hmain : ParceBrokenXML (.ok files) filter =
      (match files.find? (fun f => decide (normalizePath f.Name = "word/document.xml".toList)) with
      | none => .error .notFound
      | some f =>
        match f.data with
        | .openFails cause => .error (.openEntry cause)
        | .readFails cause => .error (.readEntry cause)
        | .content bytes => .ok (scan filter bytes)) := by
    simp only [ParceBrokenXML, findDocumentXML_eq_find]
    cases files.find? (fun f => decide (normalizePath f.Name = "word/document.xml".toList)) with
    | none => rfl
    | some f => cases hd : f.data <;> simp [hd]
  refine ⟨?_, hmain, ?_⟩
  · rw [hmain]
    cases hf : files.find? (fun f => decide (normalizePath f.Name = "word/document.xml".toList)) with
    | none =>
      simp only [true_iff]
      intro f hmem
      have := List.find?_eq_none.mp hf f hmem
      simpa using this
    | some f =>
      have hmem := List.mem_of_find?_eq_some hf
      have hp := List.find?_some hf
      have hne : ¬ ∀ g ∈ files, normalizePath g.Name ≠ "word/document.xml".toList := by
        intro hall
        exact hall f hmem (by simpa using hp)
      cases hd : f.data <;> simp only [hd] <;>
        exact ⟨fun h => by simp at h, fun hall => absurd hall hne⟩
  · intro path
    refine ⟨rfl, ?_⟩
    simp only [normalizePath, List.mem_map, not_exists, not_and]
    intro c _ hc
    by_cases h : c = '\\'
    · simp [h] at hc
    · simp [h] at hc

/-! ## The level check -/

/-- C7: the level check lets exactly the levels 0 to 9 through, and the default of the
flag `level` is `gzip.DefaultCompression`, which is -1 and not 6, so the check rejects a
run that does not set the flag. -/
theorem level_check_default :
    (∀ level : Int, levelRejected level = false ↔ 0 ≤ level ∧ level ≤ 9) ∧
    levelFlagDefault = -1 ∧ levelFlagDefault ≠ 6 ∧ levelRejected levelFlagDefault = true := by
  refine ⟨?_, rfl, by decide, by decide⟩
  intro level
  simp only [levelRejected, gzipNoCompression, gzipBestCompression, Bool.or_eq_false_iff,
    decide_eq_false_iff_not, not_lt]

/-! ## The matcher on the patterns of the program -/

theorem run_lits {α : Type} (l : Str) (k : Str → Option Str → Option α) (s : Str)
    (cap : Option Str) :
    (Re.lits l).run k s cap = if l.isPrefixOf s then k (s.drop l.length) cap else none := by
  induction l generalizing s with
  | nil => simp [Re.lits, Re.run]
  | cons c cs ih =>
    cases s with
    | nil => simp [Re.lits, Re.run]
    | cons d ds =>
      simp only [Re.lits, Re.run, ih, List.isPrefixOf, List.length_cons, List.drop_succ_cons]
      by_cases h : d = c
      · subst h; simp
      · have h2 : ¬ c = d := fun e => h e.symm
        simp [h, h2]

theorem run_rep_chr {α : Type} (n : Nat) (p : Char → Bool) (k : Str → Option Str → Option α)
    (s : Str) (cap : Option Str) :
    (Re.rep n (.chr p)).run k s cap =
      if n ≤ (s.takeWhile p).length then k (s.drop n) cap else none := by
  induction n generalizing s with
  | zero => simp [Re.rep, Re.run]
  | succ n ih =>
    cases s with
    | nil => simp [Re.rep, Re.run]
    | cons d ds =>
      simp only [Re.rep, Re.run, ih, List.drop_succ_cons]
      by_cases h : p d = true
      · simp [h, List.takeWhile_cons]
      · simp [h, List.takeWhile_cons]

theorem starGreedy_isSome {α : Type} (p : Char → Bool) (k : Str → Option α)
    (hk : ∀ s, (k s).isSome = true) (s : Str) : (starGreedy p k s).isSome = true := by
  induction s with
  | nil => simpa [starGreedy] using hk []
  | cons c cs ih =>
    rw [starGreedy]
    split
    · split
      · rfl
      · exact hk _
    · exact hk _

theorem run_upTo_isSome {α : Type} (n : Nat) (r : Re) (k : Str → Option Str → Option α)
    (hk : ∀ s cap, (k s cap).isSome = true) (s : Str) (cap : Option Str) :
    ((Re.upTo n r).run k s cap).isSome = true := by
  cases n with
  | zero => simpa [Re.upTo, Re.run] using hk s cap
  | succ n =>
    rw [Re.upTo, Re.run]
    split
    · rfl
    · simpa [Re.run] using hk s cap

theorem run_seq {α : Type} (a b : Re) (k : Str → Option Str → Option α) (s : Str)
    (cap : Option Str) :
    (Re.seq a b).run k s cap = a.run (fun s1 cap1 => b.run k s1 cap1) s cap := rfl

theorem run_alt {α : Type} (a b : Re) (k : Str → Option Str → Option α) (s : Str)
    (cap : Option Str) :
    (Re.alt a b).run k s cap =
      match a.run k s cap with
      | some r => some r
      | none => b.run k s cap := rfl

theorem run_chr {α : Type} (p : Char → Bool) (k : Str → Option Str → Option α) (s : Str)
    (cap : Option Str) :
    (Re.chr p).run k s cap =
      match s with
      | [] => none
      | c :: cs => if p c then k cs cap else none := rfl

theorem run_star {α : Type} (p : Char → Bool) (k : Str → Option Str → Option α) (s : Str)
    (cap : Option Str) :
    (Re.star p).run k s cap = starGreedy p (fun s1 => k s1 cap) s := rfl

theorem matchAt_reBase64 (t : Str) :
    (matchAt reBase64 t).isSome =
      (decide (40 ≤ (t.takeWhile isB64).length) ||
      ("iVBORw0KGgo".toList.isPrefixOf t &&
        match t.drop 11 with
        | c :: _ => c != '"'
        | [] => false)) := by
  have hA : ∀ s, (starGreedy isB64 (fun s1 => (Re.upTo 2 (.chr (fun x => x == '='))).run
      (fun rest (cap : Option Str) => some (cap.getD [], rest)) s1 none) s).isSome = true :=
    fun s => starGreedy_isSome isB64 _
      (fun s1 => run_upTo_isSome 2 _ (fun rest (cap : Option Str) => some (cap.getD [], rest))
        (fun _ _ => rfl) s1 none) s
  have hB : ∀ s, (starGreedy notQuote (fun s1 => some ((none : Option Str).getD [], s1)) s).isSome
      = true :=
    fun s => starGreedy_isSome notQuote (fun s1 => some ((none : Option Str).getD [], s1))
      (fun _ => rfl) s
  simp only [matchAt, reBase64, run_alt, run_seq, run_rep_chr, run_lits, run_chr, run_star]
  by_cases h40 : 40 ≤ (t.takeWhile isB64).length
  · simp only [h40, if_true, decide_True, Bool.true_or]
    have := hA (t.drop 40)
    revert this
    cases starGreedy isB64 (fun s1 => (Re.upTo 2 (.chr (fun x => x == '='))).run
      (fun rest (cap : Option Str) => some (cap.getD [], rest)) s1 none) (t.drop 40) with
    | none => intro h; simp at h
    | some r => intro _; rfl
  · simp only [h40, if_false, decide_False, Bool.false_or]
    by_cases hp : "iVBORw0KGgo".toList.isPrefixOf t = true
    · simp only [hp, if_true, Bool.true_and]
      have hlen : "iVBORw0KGgo".toList.length = 11 := rfl
      rw [hlen]
      cases t.drop 11 with
      | nil => rfl
      | cons c cs =>
        by_cases hq : notQuote c = true
        · simp only [hq, if_true, hB cs]
          simpa [notQuote] using hq
        · simp only [hq]
          simp only [notQuote] at hq
          simp [hq]
    · rw [Bool.not_eq_true] at hp
      rw [hp]
      rfl

theorem matchString_reBase64 (text : Str) : matchString reBase64 text = base64Like text := by
  induction text with
  | nil =>
    simp only [matchString, base64Like, matchAt_reBase64, List.tails, List.any, Bool.or_false]
  | cons c cs ih =>
    rw [matchString, ih, matchAt_reBase64]
    simp only [base64Like, List.tails, List.any]

/-! ## The two loops of the scanner -/

theorem paragraphText_foldl (filter : Option Re) (runs : List Str) (init : Str) :
    runs.foldl
      (fun builder text =>
        match filter with
        | some re => if !matchString re text then builder ++ text else builder
        | none => builder)
      init =
    init ++ (runs.map (fun text =>
      match filter with
      | some re => if matchString re text then [] else text
      | none => [])).flatten := by
  induction runs generalizing init with
  | nil => simp
  | cons t ts ih =>
    rw [List.foldl_cons, ih]
    cases filter with
    | none => simp
    | some re =>
      by_cases h : matchString re t = true
      · simp [h]
      · simp [h]

theorem paragraphText_eq (filter : Option Re) (content : Str) :
    paragraphText filter content =
      ((findAllSubmatch reText content).map (fun text =>
        match filter with
        | some re => if matchString re text then [] else text
        | none => [])).flatten := by
  cases filter with
  | none =>
    exact (paragraphText_foldl none (findAllSubmatch reText content) []).trans
      (List.nil_append _)
  | some re =>
    exact (paragraphText_foldl (some re) (findAllSubmatch reText content) []).trans
      (List.nil_append _)

theorem scan_foldl (filter : Option Re) (spans : List Str) (init : List Str) :
    spans.foldl
      (fun texts paragraphContent =>
        let builder := paragraphText filter paragraphContent
        if builder.length > 0 then texts ++ [builder ++ "\n\n".toList] else texts)
      init =
    init ++ spans.filterMap (fun content =>
      if paragraphText filter content = [] then none
      else some (paragraphText filter content ++ "\n\n".toList)) := by
  induction spans generalizing init with
  | nil => simp
  | cons c cs ih =>
    rw [List.foldl_cons, ih]
    by_cases h : paragraphText filter c = []
    · simp [h]
    · have hpos : (paragraphText filter c).length > 0 := List.length_pos.mpr h
      simp [h, hpos]

theorem scan_eq (filter : Option Re) (body : Str) :
    scan filter body =
      (findAllSubmatch reParagraph body).filterMap (fun content =>
        if paragraphText filter content = [] then none
        else some (paragraphText filter content ++ "\n\n".toList)) := by
  exact (scan_foldl filter (findAllSubmatch reParagraph body) []).trans (List.nil_append _)

/-- C3: with the pattern of `convertDocxToTxt` as filter, a captured run counts as matching
exactly when it is base64-like in the words of the specification; the text of a paragraph is
the concatenation over its captured runs, in order, of nothing for a matching run and of the
unchanged run text for any other, a choice made from the run text alone; and the entries
are the non-empty paragraph texts, each followed by two newlines. -/
theorem base64_filter (body : Str) :
    (∀ text, matchString reBase64 text = base64Like text) ∧
    (∀ content, paragraphText (some reBase64) content =
      ((findAllSubmatch reText content).map
        (fun text => if base64Like text then [] else text)).flatten) ∧
    scan (some reBase64) body =
      (findAllSubmatch reParagraph body).filterMap (fun content =>
        if paragraphText (some reBase64) content = [] then none
        else some (paragraphText (some reBase64) content ++ "\n\n".toList)) := by
  refine ⟨matchString_reBase64, ?_, scan_eq _ _⟩
  intro content
  rw [paragraphText_eq]
  simp only [matchString_reBase64]

/-- C4: the result is never longer than the list of matched paragraph spans, every entry
is a non-empty text followed by two newlines, the entries are exactly the non-empty paragraph
texts in span order, and a span all of whose runs are dropped by the filter or empty (in
particular a span without runs) has the empty text and so gives no entry. -/
theorem no_empty_entry (filter : Option Re) (body : Str) :
    (scan filter body).length ≤ (findAllSubmatch reParagraph body).length ∧
    (∀ e ∈ scan filter body, ∃ t, t ≠ [] ∧ e = t ++ "\n\n".toList) ∧
    scan filter body =
      (findAllSubmatch reParagraph body).filterMap (fun content =>
        if paragraphText filter content = [] then none
        else some (paragraphText filter content ++ "\n\n".toList)) ∧
    (∀ content,
      (∀ text ∈ findAllSubmatch reText content,
        match filter with
        | some re => matchString re text = true ∨ text = []
        | none => True) →
      paragraphText filter content = []) := by
  refine ⟨?_, ?_, scan_eq _ _, ?_⟩
  · rw [scan_eq]
    exact List.length_filterMap_le _ _
  · intro e he
    rw [scan_eq, List.mem_filterMap] at he
    obtain ⟨c, _, hc⟩ := he
    by_cases h : paragraphText filter c = []
    · simp [h] at hc
    · simp only [h, if_false, Option.some.injEq] at hc
      exact ⟨_, h, hc.symm⟩
  · intro content hall
    rw [paragraphText_eq, List.flatten_eq_nil_iff]
    intro l hl
    rw [List.mem_map] at hl
    obtain ⟨t, ht, rfl⟩ := hl
    have := hall t ht
    cases filter with
    | none => rfl
    | some re =>
      simp only at this
      rcases this with h | h
      · simp [h]
      · simp [h]

theorem scan_nil_filter (body : Str) : scan none body = [] := by
  rw [scan_eq]
  apply List.filterMap_eq_nil_iff.mpr
  intro c _
  have : paragraphText none c = [] := by
    rw [paragraphText_eq, List.flatten_eq_nil_iff]
    intro l hl
    rw [List.mem_map] at hl
    obtain ⟨t, _, rfl⟩ := hl
    rfl
  simp [this]

/-- C10 (amended): without a filter pattern every run is discarded: the scan of any body is
empty, `ParceBrokenXML` on an archive whose main entry is found, opened and read without
error returns the empty sequence without error, and the reader `NewReader` builds signals
`io.EOF` on its first `Read`. -/
theorem nil_filter_discards (files : List ZipFile) (body : Str)
    (h : findDocumentXML files = .ok (some body)) :
    scan none body = [] ∧
    ParceBrokenXML (.ok files) none = .ok [] ∧
    ∃ r, NewReader (.ok files) none = .ok r ∧ r.Read = (([], some Error.eof), r) := by
  have hp : ParceBrokenXML (.ok files) none = .ok [] := by
    simp only [ParceBrokenXML, h, scan_nil_filter]
  refine ⟨scan_nil_filter body, hp, ⟨{ texts := [], index := 0, reBase64 := none }, ?_, ?_⟩⟩
  · simp only [NewReader, hp]
  · rfl

theorem nil_filter_discards_witness :
    findDocumentXML [⟨"word\\document.xml".toList,
      .content "<w:p><w:r><w:t>hello</w:t></w:r></w:p>".toList⟩] =
      .ok (some "<w:p><w:r><w:t>hello</w:t></w:r></w:p>".toList) ∧
    scan none "<w:p><w:r><w:t>hello</w:t></w:r></w:p>".toList = [] :=
  ⟨rfl, (nil_filter_discards
    [⟨"word\\document.xml".toList, .content "<w:p><w:r><w:t>hello</w:t></w:r></w:p>".toList⟩]
    "<w:p><w:r><w:t>hello</w:t></w:r></w:p>".toList rfl).1⟩

/-- C10 fails as stated: an archive that contains the main document entry, but whose entry
cannot be read, gives the read error and not the empty sequence. -/
theorem nil_filter_read_error :
    ParceBrokenXML (.ok [⟨"word/document.xml".toList, .readFails "unexpected EOF"⟩]) none =
      .error (.readEntry "unexpected EOF") ∧
    ParceBrokenXML (.ok [⟨"word/document.xml".toList, .readFails "unexpected EOF"⟩]) none ≠
      .ok [] ∧
    ParceBrokenXML (.ok [⟨"word/document.xml".toList, .openFails "bad method"⟩]) none =
      .error (.openEntry "bad method") := by
  refine ⟨rfl, ?_, rfl⟩
  intro h
  cases h

/-- C2: on the paragraph `<w:p><w:r><w:tab/><w:t>hello</w:t></w:r></w:p>` the text pattern
starts its match at `<w:tab/>`, so the captured run is `<w:t>hello` and the single entry is
`<w:t>hello` followed by two newlines, not `hello` followed by two newlines. -/
theorem tab_markup_enters_text :
    scan (some reBase64) "<w:p><w:r><w:tab/><w:t>hello</w:t></w:r></w:p>".toList =
      ["<w:t>hello\n\n".toList] ∧
    scan (some reBase64) "<w:p><w:r><w:tab/><w:t>hello</w:t></w:r></w:p>".toList ≠
      ["hello\n\n".toList] ∧
    findAllSubmatch reText "<w:r><w:tab/><w:t>hello</w:t></w:r>".toList = ["<w:t>hello".toList] := by
  refine ⟨by decide, by decide, by decide⟩

/-! ## The output path -/

theorem filepathBase_last (front w : Str) (hw : w ≠ []) (hs : '/' ∉ w)
    (hfront : front = [] ∨ ∃ dir, front = dir ++ ['/']) :
    filepathBase (front ++ w) = w := by
  have hne : front ++ w ≠ [] := by simp [hw]
  have hsep : ∀ c ∈ w.reverse, isPathSeparator c = false := by
    intro c hc
    have : c ≠ '/' := fun e => hs (e ▸ List.mem_reverse.mp hc)
    simpa [isPathSeparator] using this
  have hdrop : (front ++ w).reverse.dropWhile isPathSeparator = (front ++ w).reverse := by
    rw [List.reverse_append]
    cases hr : w.reverse with
    | nil => exact absurd (List.reverse_eq_nil_iff.mp hr) hw
    | cons c cs =>
      have := hsep c (by rw [hr]; exact List.mem_cons_self _ _)
      simp [List.dropWhile, this]
  have htake : ((front ++ w).reverse.takeWhile (fun c => !isPathSeparator c)) = w.reverse := by
    rw [List.reverse_append, List.takeWhile_append_of_pos (by
      intro c hc; simp [hsep c hc])]
    rcases hfront with h | ⟨dir, h⟩
    · simp [h]
    · simp [h, isPathSeparator]
  simp only [filepathBase, hne, if_false, hdrop, List.reverse_reverse, htake]
  simp [hw]

/-- C8: for an input path `dir/name.docx` (or `name.docx` without a directory part), where
`name` holds no separator, the base file name is `name.docx` and the output path handed to
the conversion is the output directory joined with `name.txt`, whatever `dir` is; with
compression the file written is that path with `.gz` appended, without it the path
itself. -/
theorem output_path (join : Str → Str → Str) (outputDir dir name : Str) (compress : Bool)
    (hname : '/' ∉ name) :
    filepathBase (dir ++ "/".toList ++ name ++ ".docx".toList) = name ++ ".docx".toList ∧
    outputPath join outputDir (dir ++ "/".toList ++ name ++ ".docx".toList) =
      some (join outputDir (name ++ ".txt".toList)) ∧
    outputPath join outputDir (name ++ ".docx".toList) =
      some (join outputDir (name ++ ".txt".toList)) ∧
    writtenPath compress (join outputDir (name ++ ".txt".toList)) =
      (if compress then join outputDir (name ++ ".txt".toList) ++ ".gz".toList
       else join outputDir (name ++ ".txt".toList)) ∧
    filepathBase (name ++ ".docx".toList) = name ++ ".docx".toList := by
  have hext : ∀ ext : Str, ext = ".docx".toList ∨ ext = ".txt".toList →
      name ++ ext ≠ [] ∧ '/' ∉ name ++ ext := by
    intro ext he
    rcases he with rfl | rfl <;> simp [hname]
  have hout : ∀ front : Str, (front = [] ∨ ∃ d, front = d ++ ['/']) →
      outputFileName (front ++ name ++ ".docx".toList) = some (name ++ ".txt".toList) := by
    intro front hfront
    have hlen : (front ++ name ++ ".docx".toList).length = (front ++ name).length + 5 := by
      simp only [List.length_append]
      rfl
    have htake : (front ++ name ++ ".docx".toList).take
        ((front ++ name ++ ".docx".toList).length - 5) = front ++ name := by
      rw [hlen, Nat.add_sub_cancel, List.take_left]
    rw [outputFileName, htake, if_neg (by omega), List.append_assoc,
      filepathBase_last front _ (hext _ (Or.inr rfl)).1 (hext _ (Or.inr rfl)).2 hfront]
  refine ⟨?_, ?_, ?_, rfl, ?_⟩
  · have := filepathBase_last (dir ++ "/".toList) _ (hext _ (Or.inl rfl)).1
      (hext _ (Or.inl rfl)).2 (Or.inr ⟨dir, rfl⟩)
    simpa [List.append_assoc] using this
  · rw [outputPath, hout (dir ++ "/".toList) (Or.inr ⟨dir, rfl⟩)]
    rfl
  · have := hout [] (Or.inl rfl)
    rw [List.nil_append] at this
    rw [outputPath, this]
    rfl
  · exact filepathBase_last [] _ (hext _ (Or.inl rfl)).1 (hext _ (Or.inl rfl)).2 (Or.inl rfl)

theorem output_path_witness :
    '/' ∉ "report.v2".toList ∧
    outputPath (fun a b => a ++ "/".toList ++ b) "out".toList "in/sub/report.v2.docx".toList =
      some "out/report.v2.txt".toList :=
  ⟨by decide, (output_path (fun a b => a ++ "/".toList ++ b) "out".toList "in/sub".toList
    "report.v2".toList true (by decide)).2.1⟩

/-! ## The guard channel -/

theorem countP_set_of_getElem? {α : Type} (p : α → Bool) (l : List α) (i : Nat) (a b : α)
    (h : l[i]? = some a) :
    (l.set i b).countP p + (if p a then 1 else 0) = l.countP p + (if p b then 1 else 0) := by
  induction l generalizing i with
  | nil => simp at h
  | cons x xs ih =>
    cases i with
    | zero =>
      simp only [List.getElem?_cons_zero, Option.some.injEq] at h
      subst h
      simp only [List.set_cons_zero, List.countP_cons]
      omega
    | succ i =>
      simp only [List.getElem?_cons_succ] at h
      have := ih i h
      simp only [List.set_cons_succ, List.countP_cons]
      omega

theorem Dispatch.step_spawn (cap : Nat) (s : Dispatch) (f : Str) (rest : List Str)
    (hex : s.exited = false) (hp : s.pending = f :: rest) (hlt : s.guard < cap) :
    Dispatch.step cap s .spawn =
      some { s with pending := rest, guard := s.guard + 1, tasks := s.tasks ++ [.converting] } := by
  simp [Dispatch.step, hex, hp, hlt]

theorem Dispatch.step_finish (cap : Nat) (s : Dispatch) (i : Nat) (ok : Bool)
    (hex : s.exited = false) (hi : s.tasks[i]? = some .converting) :
    Dispatch.step cap s (.finish i ok) = some { s with tasks := s.tasks.set i (.returned ok) } := by
  simp [Dispatch.step, hex, hi]

theorem Dispatch.step_release (cap : Nat) (s : Dispatch) (i : Nat) (ok : Bool)
    (hex : s.exited = false) (hi : s.tasks[i]? = some (.returned ok)) (hpos : 0 < s.guard) :
    Dispatch.step cap s (.release i) =
      some { s with guard := s.guard - 1, tasks := s.tasks.set i (.released ok) } := by
  simp [Dispatch.step, hex, hi, hpos]

theorem Dispatch.Inv_step (cap n : Nat) (s t : Dispatch) (e : Event)
    (hs : Dispatch.Inv cap n s) (hstep : Dispatch.step cap s e = some t) :
    Dispatch.Inv cap n t := by
  obtain ⟨h1, h2, h3, h4⟩ := hs
  unfold Dispatch.step at hstep
  split at hstep
  · simp at hstep
  · cases e with
    | spawn =>
      simp only at hstep
      split at hstep
      · simp at hstep
      · rename_i f rest hp
        split at hstep
        · rename_i hlt
          simp only [Option.some.injEq] at hstep
          subst hstep
          simp only [Dispatch.Inv, Dispatch.holding, Dispatch.releasedCount, List.countP_append,
            List.countP_singleton, List.length_append, List.length_singleton, Phase.holdsPermit,
            Phase.isReleased, if_true, Bool.false_eq_true, if_false] at *
          simp only [hp, List.length_cons] at h4
          omega
        · simp at hstep
    | finish i ok =>
      simp only at hstep
      split at hstep
      · rename_i hi
        simp only [Option.some.injEq] at hstep
        subst hstep
        have c1 := countP_set_of_getElem? Phase.holdsPermit s.tasks i _ (.returned ok) hi
        have c2 := countP_set_of_getElem? Phase.isReleased s.tasks i _ (.returned ok) hi
        simp only [Phase.holdsPermit, Phase.isReleased, if_true, Bool.false_eq_true, if_false]
          at c1 c2
        simp only [Dispatch.Inv, Dispatch.holding, Dispatch.releasedCount, List.length_set] at *
        omega
      · simp at hstep
    | release i =>
      simp only at hstep
      split at hstep
      · rename_i ok hi
        split at hstep
        · rename_i hpos
          simp only [Option.some.injEq] at hstep
          subst hstep
          have c1 := countP_set_of_getElem? Phase.holdsPermit s.tasks i _ (.released ok) hi
          have c2 := countP_set_of_getElem? Phase.isReleased s.tasks i _ (.released ok) hi
          simp only [Phase.holdsPermit, Phase.isReleased, if_true, Bool.false_eq_true, if_false]
            at c1 c2
          simp only [Dispatch.Inv, Dispatch.holding, Dispatch.releasedCount, List.length_set] at *
          omega
        · simp at hstep
      · simp at hstep
    | exit =>
      simp only at hstep
      split at hstep
      · simp only [Option.some.injEq] at hstep
        subst hstep
        exact ⟨h1, h2, h3, h4⟩
      · simp at hstep

theorem Dispatch.Inv_run (cap n : Nat) (es : List Event) (s t : Dispatch)
    (hs : Dispatch.Inv cap n s) (hrun : Dispatch.run cap s es = some t) :
    Dispatch.Inv cap n t := by
  induction es generalizing s with
  | nil =>
    simp only [Dispatch.run, Option.some.injEq] at hrun
    exact hrun ▸ hs
  | cons e es ih =>
    rw [Dispatch.run] at hrun
    split at hrun
    · rename_i s1 h1
      exact ih s1 (Dispatch.Inv_step cap n s s1 e hs h1) hrun
    · simp at hrun

theorem Dispatch.Inv_init (cap : Nat) (files : List Str) :
    Dispatch.Inv cap files.length (Dispatch.init files) := by
  simp [Dispatch.Inv, Dispatch.init, Dispatch.holding, Dispatch.releasedCount]

theorem Dispatch.progress (cap n : Nat) (hcap : 1 ≤ cap) (s : Dispatch)
    (hinv : Dispatch.Inv cap n s) (hex : s.exited = false) :
    (s.pending = [] ∧ s.guard = 0 ∧ s.releasedCount = n) ∨
    ∃ e s1, Dispatch.step cap s e = some s1 ∧ s1.exited = false ∧
      3 * s1.pending.length + s1.active + s1.holding <
        3 * s.pending.length + s.active + s.holding := by
  obtain ⟨h1, h2, h3, h4⟩ := hinv
  by_cases ha : 0 < s.active
  · obtain ⟨p, hp, hpc⟩ := List.countP_pos_iff.mp ha
    obtain ⟨i, hi⟩ := List.mem_iff_getElem?.mp hp
    have hpe : p = .converting := by cases p <;> simp_all [Phase.isConverting]
    subst hpe
    refine Or.inr ⟨.finish i true, _, Dispatch.step_finish cap s i true hex hi, hex, ?_⟩
    have c1 := countP_set_of_getElem? Phase.holdsPermit s.tasks i _ (.returned true) hi
    have c2 := countP_set_of_getElem? Phase.isConverting s.tasks i _ (.returned true) hi
    simp only [Phase.holdsPermit, Phase.isConverting, if_true, Bool.false_eq_true, if_false]
      at c1 c2
    simp only [Dispatch.active, Dispatch.holding] at *
    omega
  · by_cases hh : 0 < s.holding
    · obtain ⟨p, hp, hpc⟩ := List.countP_pos_iff.mp hh
      obtain ⟨i, hi⟩ := List.mem_iff_getElem?.mp hp
      have hpe : ∃ ok, p = .returned ok := by
        cases p with
        | converting =>
          exact absurd (List.countP_pos_iff.mpr ⟨_, hp, rfl⟩) ha
        | returned ok => exact ⟨ok, rfl⟩
        | released ok => simp [Phase.holdsPermit] at hpc
      obtain ⟨ok, rfl⟩ := hpe
      refine Or.inr ⟨.release i, _, Dispatch.step_release cap s i ok hex hi (by omega), hex, ?_⟩
      have c1 := countP_set_of_getElem? Phase.holdsPermit s.tasks i _ (.released ok) hi
      have c2 := countP_set_of_getElem? Phase.isConverting s.tasks i _ (.released ok) hi
      simp only [Phase.holdsPermit, Phase.isConverting, if_true, Bool.false_eq_true, if_false]
        at c1 c2
      simp only [Dispatch.active, Dispatch.holding] at *
      omega
    · cases hp : s.pending with
      | nil =>
        rw [hp] at h4
        simp only [List.length_nil] at h4
        exact Or.inl ⟨rfl, by omega, by omega⟩
      | cons f rest =>
        refine Or.inr ⟨.spawn, _, Dispatch.step_spawn cap s f rest hex hp (by omega), hex, ?_⟩
        simp only [Dispatch.active, Dispatch.holding, List.countP_append, List.countP_singleton,
          Phase.holdsPermit, Phase.isConverting, if_true, List.length_cons] at *
        omega

theorem Dispatch.exists_complete (cap n : Nat) (hcap : 1 ≤ cap) (k : Nat) (s : Dispatch)
    (hk : 3 * s.pending.length + s.active + s.holding ≤ k)
    (hinv : Dispatch.Inv cap n s) (hex : s.exited = false) :
    ∃ es t, Dispatch.run cap s es = some t ∧ t.pending = [] ∧ t.guard = 0 ∧
      t.releasedCount = n ∧ t.exited = false := by
  induction k generalizing s with
  | zero =>
    rcases Dispatch.progress cap n hcap s hinv hex with hdone | ⟨e, s1, _, _, hlt⟩
    · exact ⟨[], s, rfl, hdone.1, hdone.2.1, hdone.2.2, hex⟩
    · omega
  | succ k ih =>
    rcases Dispatch.progress cap n hcap s hinv hex with hdone | ⟨e, s1, hstep, hex1, hlt⟩
    · exact ⟨[], s, rfl, hdone.1, hdone.2.1, hdone.2.2, hex⟩
    · obtain ⟨es, t, hrun, ht⟩ :=
        ih s1 (by omega) (Dispatch.Inv_step cap n s s1 e hinv hstep) hex1
      refine ⟨e :: es, t, ?_, ht⟩
      simp only [Dispatch.run, hstep, hrun]

/-- C9 (amended): in every state the dispatch loop can reach with a guard channel of
capacity `cap`, the goroutines inside the conversion, and even those that have not yet taken
their permit out, are at most `cap`; the permits in the channel are exactly those of the
goroutines still holding one, and every permit put in is either in the channel or was taken
out by a finished goroutine.  While `main` has not returned, the deferred receive of a
goroutine whose conversion returned (with or without success) is never blocked and takes
exactly one permit out, a goroutine that has taken its permit out takes no further step,
and for `cap ≥ 1` the run can always be continued to a state where every file was
dispatched and every permit was taken out again.  Once `main` has returned nothing moves
any more. -/
theorem guard_bounds_active (cap : Nat) (files : List Str) (s : Dispatch)
    (h : Dispatch.Reachable cap files s) :
    s.active ≤ cap ∧ s.holding ≤ cap ∧ s.guard = s.holding ∧
    s.guard + s.releasedCount = s.tasks.length ∧
    s.tasks.length + s.pending.length = files.length ∧
    (s.exited = false → ∀ i ok, s.tasks[i]? = some (.returned ok) →
      1 ≤ s.guard ∧ Dispatch.step cap s (.release i) =
        some { s with guard := s.guard - 1, tasks := s.tasks.set i (.released ok) }) ∧
    (s.exited = false → ∀ i ok, s.tasks[i]? = some .converting →
      Dispatch.step cap s (.finish i ok) =
        some { s with tasks := s.tasks.set i (.returned ok) }) ∧
    (∀ i ok e, s.tasks[i]? = some (.released ok) → e = .release i ∨ (∃ b, e = .finish i b) →
      Dispatch.step cap s e = none) ∧
    (s.exited = false → 1 ≤ cap → ∃ es t, Dispatch.run cap s es = some t ∧
      t.exited = false ∧ t.pending = [] ∧ t.guard = 0 ∧ t.releasedCount = files.length) ∧
    (s.exited = true → ∀ e, Dispatch.step cap s e = none) := by
  obtain ⟨es, hes⟩ := h
  have hinv := Dispatch.Inv_run cap files.length es _ s (Dispatch.Inv_init cap files) hes
  obtain ⟨h1, h2, h3, h4⟩ := hinv
  have hact : s.active ≤ s.holding := by
    apply List.countP_mono_left
    intro p _ hp
    cases p <;> simp_all [Phase.isConverting, Phase.holdsPermit]
  refine ⟨by omega, by omega, h1, h3, h4, ?_, ?_, ?_, ?_, ?_⟩
  · intro hex i ok hi
    have hpos : 0 < s.holding := List.countP_pos_iff.mpr ⟨_, List.getElem?_mem hi, rfl⟩
    exact ⟨by omega, Dispatch.step_release cap s i ok hex hi (by omega)⟩
  · intro hex i ok hi
    exact Dispatch.step_finish cap s i ok hex hi
  · intro i ok e hi he
    unfold Dispatch.step
    rcases he with rfl | ⟨b, rfl⟩
    · simp [hi]
    · simp [hi]
  · intro hex hcap
    obtain ⟨es1, t, hrun, hp, hg, hr, hx⟩ :=
      Dispatch.exists_complete cap files.length hcap _ s (Nat.le_refl _) ⟨h1, h2, h3, h4⟩ hex
    exact ⟨es1, t, hrun, hx, hp, hg, hr⟩
  · intro hex e
    simp [Dispatch.step, hex]

theorem guard_bounds_active_witness :
    Dispatch.Reachable 2 ["a.docx".toList, "b.docx".toList, "c.docx".toList]
      ⟨["c.docx".toList], 2, [.converting, .returned false], false⟩ ∧
    Dispatch.active ⟨["c.docx".toList], 2, [.converting, .returned false], false⟩ ≤ 2 :=
  ⟨⟨[.spawn, .spawn, .finish 1 false], by decide⟩,
   (guard_bounds_active 2 ["a.docx".toList, "b.docx".toList, "c.docx".toList]
     ⟨["c.docx".toList], 2, [.converting, .returned false], false⟩
     ⟨[.spawn, .spawn, .finish 1 false], by decide⟩).1⟩

/-- C9 fails as stated: with two files and capacity 2 both conversions return (`wg.Done`
runs inside `convertDocxToTxt`, before the deferred receive of the closure), `wg.Wait()`
is satisfied and `main` returns; the state reached holds two permits in the channel, no
goroutine has taken one out, and no step is possible any more, so these permits are never
released. -/
theorem permits_left_at_exit :
    Dispatch.Reachable 2 ["a.docx".toList, "b.docx".toList]
      ⟨[], 2, [.returned true, .returned false], true⟩ ∧
    Dispatch.run 2 (Dispatch.init ["a.docx".toList, "b.docx".toList])
      [.spawn, .spawn, .finish 0 true, .finish 1 false, .exit] =
      some ⟨[], 2, [.returned true, .returned false], true⟩ ∧
    Dispatch.releasedCount ⟨[], 2, [.returned true, .returned false], true⟩ = 0 ∧
    ∀ e, Dispatch.step 2 ⟨[], 2, [.returned true, .returned false], true⟩ e = none := by
  refine ⟨⟨[.spawn, .spawn, .finish 0 true, .finish 1 false, .exit], by decide⟩, by decide,
    by decide, ?_⟩
  intro e
  rfl

/-! ## The tag patterns -/

theorem run_lazyStar {α : Type} (p : Char → Bool) (k : Str → Option Str → Option α) (s : Str)
    (cap : Option Str) :
    (Re.lazyStar p).run k s cap = starLazy p (fun s1 => k s1 cap) s := rfl

theorem run_group {α : Type} (r : Re) (k : Str → Option Str → Option α) (s : Str)
    (cap : Option Str) :
    (Re.group r).run k s cap =
      r.run (fun s1 _ => k s1 (some (s.take (s.length - s1.length)))) s cap := rfl

theorem starGreedy_notGt {α : Type} (k : Str → Option α)
    (hk : ∀ s, (∀ cs, s ≠ '>' :: cs) → k s = none) (s : Str) :
    starGreedy notGt k s = k (s.dropWhile notGt) := by
  induction s with
  | nil => rfl
  | cons c cs ih =>
    rw [starGreedy]
    by_cases h : notGt c = true
    · have hnone : k (c :: cs) = none := by
        apply hk
        intro ds e
        simp only [List.cons.injEq] at e
        rw [e.1] at h
        simp [notGt] at h
      rw [if_pos h, ih, List.dropWhile_cons_of_pos h]
      cases k (List.dropWhile notGt cs) <;> simp [hnone]
    · rw [if_neg h, List.dropWhile_cons_of_neg h]

theorem starLazy_first {α : Type} (p : Char → Bool) (k : Str → Option α) (x y : Str) (r : α)
    (hp : ∀ c ∈ x, p c = true) (hnone : ∀ j, j < x.length → k ((x ++ y).drop j) = none)
    (hy : k y = some r) : starLazy p k (x ++ y) = some r := by
  induction x with
  | nil =>
    cases y with
    | nil => simpa [starLazy] using hy
    | cons d ds => simp [starLazy, hy]
  | cons c x ih =>
    have h0 := hnone 0 (by simp)
    simp only [List.drop_zero] at h0
    simp only [List.cons_append] at h0 ⊢
    rw [starLazy, h0]
    simp only [hp c (List.mem_cons_self _ _), if_true]
    apply ih (fun d hd => hp d (List.mem_cons_of_mem _ hd))
    intro j hj
    have := hnone (j + 1) (by simp; omega)
    simpa using this

theorem starLazy_some {α : Type} (p : Char → Bool) (k : Str → Option α) (s : Str) (r : α)
    (h : starLazy p k s = some r) : ∃ t, t <:+ s ∧ k t = some r := by
  induction s with
  | nil => exact ⟨[], List.suffix_refl _, by simpa [starLazy] using h⟩
  | cons c cs ih =>
    rw [starLazy] at h
    cases hk : k (c :: cs) with
    | some r1 =>
      rw [hk] at h
      simp only [Option.some.injEq] at h
      exact ⟨c :: cs, List.suffix_refl _, h ▸ hk⟩
    | none =>
      rw [hk] at h
      simp only at h
      split at h
      · obtain ⟨t, ht, hkt⟩ := ih h
        exact ⟨t, ht.trans (List.suffix_cons _ _), hkt⟩
      · simp at h

/-- The search of `tagRe` at one position in closed form: the opening literal, everything
up to the first `>`, then the shortest run of characters other than a line feed that is
followed by the closing literal. -/
theorem matchAt_tagRe (o cl s : Str) :
    matchAt (tagRe o cl) s =
      if o.isPrefixOf s then
        match (s.drop o.length).dropWhile notGt with
        | [] => none
        | ch :: s3 =>
          if ch == '>' then
            starLazy dot
              (fun s4 =>
                if cl.isPrefixOf s4 then some (s3.take (s3.length - s4.length), s4.drop cl.length)
                else none)
              s3
          else none
      else none := by
  simp only [matchAt, tagRe, run_seq, run_lits, run_star, run_chr, run_group, run_lazyStar]
  split
  · rw [starGreedy_notGt]
    · rfl
    · intro t ht
      cases t with
      | nil => rfl
      | cons d ds =>
        have : d ≠ '>' := fun e => ht ds (by rw [e])
        simp [this]
  · rfl

theorem not_prefix_of_not_infix (tl x rest : Str) (hlt : '<' ∉ tl)
    (hx : ¬ ('<' :: tl) <:+: x) (j : Nat) (hj : j < x.length) :
    ¬ ('<' :: tl) <+: (x ++ '<' :: (tl ++ rest)).drop j := by
  intro hpre
  rw [List.drop_append_of_le_length (Nat.le_of_lt hj)] at hpre
  have hx1 : ¬ ('<' :: tl) <:+: x.drop j :=
    fun h => hx (h.trans (List.drop_suffix j x).isInfix)
  have hne : x.drop j ≠ [] := by
    intro e
    have := congrArg List.length e
    simp at this
    omega
  generalize x.drop j = x1 at hpre hx1 hne
  by_cases hlen : ('<' :: tl).length ≤ x1.length
  · exact hx1 ((List.prefix_of_prefix_length_le hpre (List.prefix_append _ _) hlen).isInfix)
  · have hx1pre : x1 <+: '<' :: tl :=
      List.prefix_of_prefix_length_le (List.prefix_append _ _) hpre (by omega)
    cases x1 with
    | nil => exact hne rfl
    | cons d x2 =>
      obtain ⟨z, hz⟩ := hx1pre
      simp only [List.cons_append, List.cons.injEq] at hz
      obtain ⟨hd, htl⟩ := hz
      subst hd
      rw [← htl] at hpre hlen
      simp only [List.cons_append, List.cons_prefix_cons, true_and,
        List.prefix_append_right_inj] at hpre
      cases z with
      | nil => simp at hlen
      | cons z0 zs =>
        simp only [List.cons_prefix_cons] at hpre
        apply hlt
        rw [← htl, ← hpre.1]
        simp

theorem dropWhile_notGt (a y : Str) (ha : '>' ∉ a) :
    (a ++ '>' :: y).dropWhile notGt = '>' :: y := by
  induction a with
  | nil => simp [List.dropWhile, notGt]
  | cons d ds ih =>
    have hd : notGt d = true := by
      have : d ≠ '>' := fun e => ha (e ▸ List.mem_cons_self _ _)
      simpa [notGt] using this
    rw [List.cons_append, List.dropWhile_cons_of_pos hd]
    exact ih (fun h => ha (List.mem_cons_of_mem _ h))

/-- A paragraph or run element that is matched as a whole: the capture is its content and the
search goes on right after its closing tag. -/
theorem matchAt_tagRe_span (o tl a c rest : Str) (hlt : '<' ∉ tl) (ha : '>' ∉ a)
    (hc : '\n' ∉ c) (hcl : ¬ ('<' :: tl) <:+: c) :
    matchAt (tagRe o ('<' :: tl)) (o ++ a ++ '>' :: (c ++ '<' :: (tl ++ rest))) =
      some (c, rest) := by
  rw [matchAt_tagRe]
  have hpre : o.isPrefixOf (o ++ a ++ '>' :: (c ++ '<' :: (tl ++ rest))) = true := by
    rw [List.isPrefixOf_iff_prefix, List.append_assoc]
    exact List.prefix_append _ _
  have hdrop : (o ++ a ++ '>' :: (c ++ '<' :: (tl ++ rest))).drop o.length =
      a ++ '>' :: (c ++ '<' :: (tl ++ rest)) := by
    rw [List.append_assoc, List.drop_left]
  have hdw := dropWhile_notGt a (c ++ '<' :: (tl ++ rest)) ha
  rw [if_pos hpre, hdrop, hdw]
  simp only [beq_self_eq_true, if_true]
  apply starLazy_first
  · intro ch hch
    have : ch ≠ '\n' := fun e => hc (e ▸ hch)
    simpa [dot] using this
  · intro j hj
    have := not_prefix_of_not_infix tl c rest hlt hcl j hj
    rw [← List.isPrefixOf_iff_prefix] at this
    simp only [this]
    rfl
  · have hp2 : ('<' :: tl).isPrefixOf ('<' :: (tl ++ rest)) = true := by
      rw [List.isPrefixOf_iff_prefix]
      exact List.prefix_append ('<' :: tl) rest
    rw [if_pos hp2]
    have h1 : (c ++ '<' :: (tl ++ rest)).length - ('<' :: (tl ++ rest)).length = c.length := by
      simp
    have h2 : ('<' :: (tl ++ rest)).drop ('<' :: tl).length = rest := by
      simp
    rw [h1, h2, List.take_left]

theorem matchAt_tagRe_none (o cl s : Str) (h : ¬ o <+: s) : matchAt (tagRe o cl) s = none := by
  rw [matchAt_tagRe, if_neg]
  rwa [List.isPrefixOf_iff_prefix]

theorem matchAt_tagRe_closing (o cl s : Str) (r : Str × Str)
    (h : matchAt (tagRe o cl) s = some r) : cl <:+: s := by
  rw [matchAt_tagRe] at h
  split at h
  · split at h
    · simp at h
    · rename_i ch s3 hs3
      split at h
      · obtain ⟨t, ht, hk⟩ := starLazy_some _ _ _ _ h
        have hcl : cl <+: t := by
          by_cases hp : cl.isPrefixOf t = true
          · exact List.isPrefixOf_iff_prefix.mp hp
          · simp [hp] at hk
        have h1 : t <:+ ch :: s3 := ht.trans (List.suffix_cons _ _)
        have h2 : (ch :: s3) <:+ s := by
          rw [← hs3]
          exact (List.dropWhile_suffix _).trans (List.drop_suffix _ _)
        exact List.IsInfix.trans hcl.isInfix (h1.trans h2).isInfix
      · simp at h
  · simp at h

/-! ## Successive matches -/

theorem findAllFrom_skip (re : Re) (x r : Str) :
    findAllFrom re (x ++ r) x.length = findAllFrom re r 0 := by
  induction x with
  | nil => rfl
  | cons c x ih => simpa [findAllFrom] using ih

theorem findAllFrom_gap (re : Re) (g r : Str)
    (h : ∀ j, j < g.length → matchAt re ((g ++ r).drop j) = none) :
    findAllFrom re (g ++ r) 0 = findAllFrom re r 0 := by
  induction g with
  | nil => rfl
  | cons c g ih =>
    have h0 := h 0 (by simp)
    simp only [List.drop_zero, List.cons_append] at h0
    rw [List.cons_append, findAllFrom, h0]
    apply ih
    intro j hj
    have := h (j + 1) (by simp; omega)
    simpa using this

theorem findAllFrom_match (re : Re) (c : Char) (m rest cap : Str)
    (h : matchAt re (c :: (m ++ rest)) = some (cap, rest)) :
    findAllFrom re (c :: (m ++ rest)) 0 = cap :: findAllFrom re rest 0 := by
  rw [findAllFrom, h]
  have hlen : (c :: (m ++ rest)).length - rest.length - 1 = m.length := by
    simp only [List.length_cons, List.length_append]
    omega
  simp only [hlen, findAllFrom_skip]

theorem findAllFrom_no_closing (o cl s : Str) (h : ¬ cl <:+: s) :
    findAllFrom (tagRe o cl) s 0 = [] := by
  induction s with
  | nil => rfl
  | cons c cs ih =>
    have hnone : matchAt (tagRe o cl) (c :: cs) = none := by
      cases hm : matchAt (tagRe o cl) (c :: cs) with
      | none => rfl
      | some r => exact absurd (matchAt_tagRe_closing o cl _ r hm) h
    rw [findAllFrom, hnone]
    exact ih (fun hi => h (hi.trans (List.suffix_cons _ _).isInfix))

theorem findAllSubmatch_documentOf (ps : List Para) (tail : Str)
    (hps : ∀ p ∈ ps, p.Plain) (htail : ¬ "</w:p>".toList <:+: tail) :
    findAllSubmatch reParagraph (documentOf ps tail) = ps.map (fun p => p.content) := by
  induction ps with
  | nil => exact findAllFrom_no_closing _ _ _ htail
  | cons p ps ih =>
    obtain ⟨hgap, hattrs, hnl, hclose⟩ := hps p (List.mem_cons_self _ _)
    have ih1 := ih (fun q hq => hps q (List.mem_cons_of_mem _ hq))
    have hshape : p.markup ++ documentOf ps tail =
        '<' :: (("w:p".toList ++ p.attrs ++ ">".toList ++ p.content ++ "</w:p>".toList) ++
          documentOf ps tail) := by
      simp [Para.markup]
    have hmatch : matchAt reParagraph (p.markup ++ documentOf ps tail) =
        some (p.content, documentOf ps tail) := by
      have := matchAt_tagRe_span "<w:p".toList "/w:p>".toList p.attrs p.content
        (documentOf ps tail) (by decide) hattrs hnl hclose
      rw [← this]
      simp [Para.markup, reParagraph]
    rw [findAllSubmatch, documentOf, List.append_assoc, findAllFrom_gap]
    · rw [hshape] at hmatch ⊢
      rw [findAllFrom_match reParagraph '<'
        ("w:p".toList ++ p.attrs ++ ">".toList ++ p.content ++ "</w:p>".toList)
        (documentOf ps tail) p.content hmatch]
      simp only [List.map_cons, List.cons.injEq, true_and]
      exact ih1
    · intro j hj
      apply matchAt_tagRe_none
      have := not_prefix_of_not_infix "w:p".toList p.gap
        (p.attrs ++ ">".toList ++ p.content ++ "</w:p>".toList ++ documentOf ps tail)
        (by decide) hgap j hj
      simpa [Para.markup] using this

/-- C1 (amended): for a document body made of `K` consecutive paragraph elements
`<w:p attrs>content</w:p>`, whatever whitespace or line breaks stand in the gaps between them
and inside their opening tags, where no `<w:p` starts in a gap, no content holds a line feed
or a closing paragraph tag, nothing after the last element closes a paragraph, and the runs
the filter keeps give every paragraph a non-empty text, the scan returns exactly `K`
entries, the `i`-th being the kept text of the `i`-th paragraph followed by two newlines. -/
theorem paragraphs_in_order (filter : Option Re) (ps : List Para) (tail : Str)
    (hps : ∀ p ∈ ps, p.Plain ∧ paragraphText filter p.content ≠ [])
    (htail : ¬ "</w:p>".toList <:+: tail) :
    scan filter (documentOf ps tail) =
      ps.map (fun p => paragraphText filter p.content ++ "\n\n".toList) ∧
    (scan filter (documentOf ps tail)).length = ps.length ∧
    ∀ i (hi : i < ps.length), (scan filter (documentOf ps tail))[i]? =
      some (paragraphText filter (ps.get ⟨i, hi⟩).content ++ "\n\n".toList) := by
  have hscan : scan filter (documentOf ps tail) =
      ps.map (fun p => paragraphText filter p.content ++ "\n\n".toList) := by
    rw [scan_eq, findAllSubmatch_documentOf ps tail (fun p hp => (hps p hp).1) htail]
    clear htail
    induction ps with
    | nil => rfl
    | cons p ps ih =>
      have hp := (hps p (List.mem_cons_self _ _)).2
      simp only [List.map_cons, List.filterMap_cons, hp, if_false]
      rw [ih (fun q hq => hps q (List.mem_cons_of_mem _ hq))]
  refine ⟨hscan, by rw [hscan, List.length_map], ?_⟩
  intro i hi
  rw [hscan, List.getElem?_map, List.getElem?_eq_getElem hi]
  rfl

set_option maxRecDepth 100000

theorem paragraphs_in_order_witness :
    documentOf
      [⟨"<w:body>\n".toList, " w:id=\"1\"".toList, "<w:r><w:t>one</w:t></w:r>".toList⟩,
       ⟨"\n  ".toList, "\n".toList,
        "<w:pPr><w:jc/></w:pPr><w:r><w:t>t</w:t></w:r><w:r><w:t>wo</w:t></w:r>".toList⟩]
      "<w:sectPr><w:pgSz/></w:sectPr></w:body>".toList =
      ("<w:body>\n<w:p w:id=\"1\"><w:r><w:t>one</w:t></w:r></w:p>\n  <w:p\n>" ++
        "<w:pPr><w:jc/></w:pPr><w:r><w:t>t</w:t></w:r><w:r><w:t>wo</w:t></w:r></w:p>" ++
        "<w:sectPr><w:pgSz/></w:sectPr></w:body>").toList ∧
    scan (some reBase64) (documentOf
      [⟨"<w:body>\n".toList, " w:id=\"1\"".toList, "<w:r><w:t>one</w:t></w:r>".toList⟩,
       ⟨"\n  ".toList, "\n".toList,
        "<w:pPr><w:jc/></w:pPr><w:r><w:t>t</w:t></w:r><w:r><w:t>wo</w:t></w:r>".toList⟩]
      "<w:sectPr><w:pgSz/></w:sectPr></w:body>".toList) =
      ["one\n\n".toList, "two\n\n".toList] :=
  ⟨by decide, (paragraphs_in_order (some reBase64)
      [⟨"<w:body>\n".toList, " w:id=\"1\"".toList, "<w:r><w:t>one</w:t></w:r>".toList⟩,
       ⟨"\n  ".toList, "\n".toList,
        "<w:pPr><w:jc/></w:pPr><w:r><w:t>t</w:t></w:r><w:r><w:t>wo</w:t></w:r>".toList⟩]
      "<w:sectPr><w:pgSz/></w:sectPr></w:body>".toList (by decide) (by decide)).1.trans
    (by decide)⟩

/-- C1 fails as stated: the paragraph `<w:p><w:r><w:t></w:t></w:r></w:p>` is matched and
holds a run that the filter keeps (the empty text is not base64-like), yet the scan returns
no entry, because an entry is only appended when the paragraph text is not empty; and two
nested paragraph elements, each with a kept run, give one entry, because the pattern
closes a span at the first closing tag. -/
theorem empty_run_gives_no_entry :
    findAllSubmatch reParagraph "<w:p><w:r><w:t></w:t></w:r></w:p>".toList =
      ["<w:r><w:t></w:t></w:r>".toList] ∧
    findAllSubmatch reText "<w:r><w:t></w:t></w:r>".toList = [[]] ∧
    matchString reBase64 [] = false ∧
    scan (some reBase64) "<w:p><w:r><w:t></w:t></w:r></w:p>".toList = [] ∧
    scan (some reBase64)
      "<w:p><w:r><w:t>a</w:t></w:r><w:p><w:r><w:t>b</w:t></w:r></w:p></w:p>".toList =
      ["ab\n\n".toList] := by
  refine ⟨by decide, by decide, by decide, by decide, by decide⟩

/-- A paragraph element with a line feed between its tags is not matched at all: `.` in the
paragraph pattern excludes the line feed. -/
theorem line_feed_in_paragraph :
    scan (some reBase64) "<w:p>\n<w:r><w:t>hello</w:t></w:r>\n</w:p>".toList = [] := by
  decide

end Docx2txt
